import Mathlib

/-!
Verification development for the `ipc-eventer` repository: a shallow
embedding, in Lean 4, of the protocol and connection-management layer
described by the repository's specification — the Framer (newline-delimited
JSON frames with an optional authenticated-encryption envelope), the
password-based key derivation, the server-side Session Registry with
single-active-connection-per-identity and registry-mediated broadcast, the
Heartbeat Monitor, and the client-side Reconnect Controller.

The repository's published files contain only the TypeScript declaration
file `src/cjs/index.d.ts` and the README: the implementation bodies are not
part of the sources.  Every operation below is therefore modelled from the
specification's own words (each such definition carries a doc comment
beginning `Modelled from the spec:`), and the theorems settle the
specification's testable properties against those models.

Bytes are modelled as `Nat`; machine-level wrap-around is written with an
explicit `% 2 ^ w` where it matters.  All definitions are computable.
-/

namespace IpcEventer

/-- Modelled from the spec: an arbitrary JSON-serializable value, the `data`
payload of a Message (spec §3: "optional arbitrary-JSON-serializable
value"). -/
inductive JValue where
  | null : JValue
  | bool (b : Bool) : JValue
  | num (n : Int) : JValue
  | str (s : String) : JValue
  | arr (items : List JValue) : JValue
  | obj (fields : List (String × JValue)) : JValue

/-- Modelled from the spec: a Message is `{ event: string, data: optional
arbitrary-JSON-serializable value }` (spec §3). -/
structure Message where
  event : String
  data : Option JValue

/-- Serialization of a string: its length followed by the code points of its
characters.  Stands for the JSON string serialization of the spec's wire
format; what the proofs use is only that it is an injectively decodable,
self-delimiting encoding. -/
def encStr (s : String) : List Nat :=
  s.toList.length :: s.toList.map Char.toNat

/-- Parse one length-prefixed string, returning it with the unconsumed
rest. -/
def parseStr (bs : List Nat) : Option (String × List Nat) :=
  match bs with
  | [] => none
  | n :: r =>
    if n ≤ r.length then
      some (String.mk ((r.take n).map Char.ofNat), r.drop n)
    else none

theorem stringMk_toList (s : String) : String.mk s.toList = s := rfl

theorem parseStr_encStr (s : String) (r : List Nat) :
    parseStr (encStr s ++ r) = some (s, r) := by
  have hlen : (s.toList.map Char.toNat).length = s.toList.length := by
    simp
  simp only [encStr, List.cons_append, parseStr]
  rw [if_pos (by simp)]
  rw [List.take_left' hlen, List.drop_left' hlen]
  simp [List.map_map, Function.comp_def, stringMk_toList]

mutual

/-- Serialization of a JSON value: a tag byte followed by the payload.
Stands for the JSON text serialization (spec §4.1); the proofs use only
that it is injectively decodable. -/
def encJ : JValue → List Nat
  | .null => [0]
  | .bool b => [1, cond b 1 0]
  | .num n => [2, if n < 0 then 1 else 0, n.natAbs]
  | .str s => 3 :: encStr s
  | .arr items => 4 :: items.length :: encJItems items
  | .obj fields => 5 :: fields.length :: encJFields fields

/-- Serialization of a list of array items, concatenated. -/
def encJItems : List JValue → List Nat
  | [] => []
  | v :: vs => encJ v ++ encJItems vs

/-- Serialization of a list of object fields, concatenated. -/
def encJFields : List (String × JValue) → List Nat
  | [] => []
  | (k, v) :: fs => encStr k ++ encJ v ++ encJFields fs

end

mutual

/-- Nesting depth of a JSON value: a fuel bound for the parser. -/
def szJ : JValue → Nat
  | .null => 1
  | .bool _ => 1
  | .num _ => 1
  | .str _ => 1
  | .arr items => szItems items + 1
  | .obj fields => szFields fields + 1

/-- Largest nesting depth among array items. -/
def szItems : List JValue → Nat
  | [] => 0
  | v :: vs => max (szJ v) (szItems vs)

/-- Largest nesting depth among object field values. -/
def szFields : List (String × JValue) → Nat
  | [] => 0
  | (_, v) :: fs => max (szJ v) (szFields fs)

end

mutual

/-- Fuelled parser for one JSON value; the fuel only has to dominate the
nesting depth. -/
def parseJ : Nat → List Nat → Option (JValue × List Nat)
  | 0, _ => none
  | f + 1, bs =>
    match bs with
    | 0 :: r => some (.null, r)
    | 1 :: b :: r => some (.bool (b == 1), r)
    | 2 :: sgn :: a :: r =>
      some (.num (if sgn == 1 then -(a : Int) else (a : Int)), r)
    | 3 :: r =>
      match parseStr r with
      | some (s, r') => some (.str s, r')
      | none => none
    | 4 :: n :: r =>
      match parseItems f n r with
      | some (vs, r') => some (.arr vs, r')
      | none => none
    | 5 :: n :: r =>
      match parseFields f n r with
      | some (fs, r') => some (.obj fs, r')
      | none => none
    | _ => none
termination_by f _ => (f, 0)

/-- Parse exactly `n` array items. -/
def parseItems : Nat → Nat → List Nat → Option (List JValue × List Nat)
  | _, 0, bs => some ([], bs)
  | 0, _ + 1, _ => none
  | f + 1, n + 1, bs =>
    match parseJ (f + 1) bs with
    | some (v, r) =>
      match parseItems (f + 1) n r with
      | some (vs, r') => some (v :: vs, r')
      | none => none
    | none => none
termination_by f n _ => (f, n + 1)

/-- Parse exactly `n` object fields. -/
def parseFields :
    Nat → Nat → List Nat → Option (List (String × JValue) × List Nat)
  | _, 0, bs => some ([], bs)
  | 0, _ + 1, _ => none
  | f + 1, n + 1, bs =>
    match parseStr bs with
    | some (k, r) =>
      match parseJ (f + 1) r with
      | some (v, r') =>
        match parseFields (f + 1) n r' with
        | some (fs, r'') => some ((k, v) :: fs, r'')
        | none => none
      | none => none
    | none => none
termination_by f n _ => (f, n + 1)

end

theorem szJ_pos (v : JValue) : 1 ≤ szJ v := by
  cases v <;> simp [szJ]

theorem szJ_le_szItems {v : JValue} :
    ∀ {vs : List JValue}, v ∈ vs → szJ v ≤ szItems vs := by
  intro vs h
  induction vs with
  | nil => cases h
  | cons w ws ih =>
    rcases List.mem_cons.mp h with h' | h'
    · subst h'; simp [szItems]
    · exact le_trans (ih h') (by simp [szItems])

theorem szJ_le_szFields {k : String} {v : JValue} :
    ∀ {fs : List (String × JValue)}, (k, v) ∈ fs → szJ v ≤ szFields fs := by
  intro fs h
  induction fs with
  | nil => cases h
  | cons w ws ih =>
    rcases List.mem_cons.mp h with h' | h'
    · subst h'; simp [szFields]
    · rcases w with ⟨k', v'⟩
      exact le_trans (ih h') (by simp [szFields])

mutual

theorem szJ_le_len : (v : JValue) → szJ v ≤ (encJ v).length
  | .null => by simp [szJ, encJ]
  | .bool b => by simp [szJ, encJ]
  | .num n => by simp [szJ, encJ]
  | .str s => by simp [szJ, encJ, encStr]
  | .arr items => by
    have h := szItems_le_len items
    simp only [szJ, encJ, List.length_cons]
    omega
  | .obj fields => by
    have h := szFields_le_len fields
    simp only [szJ, encJ, List.length_cons]
    omega

theorem szItems_le_len : (vs : List JValue) → szItems vs ≤ (encJItems vs).length + 1
  | [] => by simp [szItems, encJItems]
  | v :: vs => by
    have h1 := szJ_le_len v
    have h2 := szItems_le_len vs
    simp only [szItems, encJItems, List.length_append]
    omega

theorem szFields_le_len :
    (fs : List (String × JValue)) → szFields fs ≤ (encJFields fs).length + 1
  | [] => by simp [szFields, encJFields]
  | (k, v) :: fs => by
    have h1 := szJ_le_len v
    have h2 := szFields_le_len fs
    simp only [szFields, encJFields, List.length_append]
    omega

end

theorem parseItems_enc (f : Nat)
    (hJ : ∀ (v : JValue) (r : List Nat), szJ v ≤ f →
      parseJ f (encJ v ++ r) = some (v, r)) :
    ∀ (vs : List JValue) (r : List Nat), (∀ v ∈ vs, szJ v ≤ f) →
      parseItems f vs.length (encJItems vs ++ r) = some (vs, r) := by
  intro vs
  induction vs with
  | nil => intro r _; simp [encJItems, parseItems]
  | cons v vs ih =>
    intro r h
    have hv : szJ v ≤ f := h v (List.mem_cons_self v vs)
    obtain ⟨g, rfl⟩ : ∃ g, f = g + 1 :=
      ⟨f - 1, by have := szJ_pos v; omega⟩
    have e1 : encJItems (v :: vs) ++ r = encJ v ++ (encJItems vs ++ r) := by
      simp [encJItems]
    rw [List.length_cons, e1]
    simp only [parseItems, hJ v (encJItems vs ++ r) hv,
      ih r (fun w hw => h w (List.mem_cons_of_mem v hw))]

theorem parseFields_enc (f : Nat)
    (hJ : ∀ (v : JValue) (r : List Nat), szJ v ≤ f →
      parseJ f (encJ v ++ r) = some (v, r)) :
    ∀ (fs : List (String × JValue)) (r : List Nat),
      (∀ p ∈ fs, szJ p.2 ≤ f) →
      parseFields f fs.length (encJFields fs ++ r) = some (fs, r) := by
  intro fs
  induction fs with
  | nil => intro r _; simp [encJFields, parseFields]
  | cons p fs ih =>
    rcases p with ⟨k, v⟩
    intro r h
    have hv : szJ v ≤ f := h (k, v) (List.mem_cons_self (k, v) fs)
    obtain ⟨g, rfl⟩ : ∃ g, f = g + 1 :=
      ⟨f - 1, by have := szJ_pos v; omega⟩
    have e1 : encJFields ((k, v) :: fs) ++ r =
        encStr k ++ (encJ v ++ (encJFields fs ++ r)) := by
      simp [encJFields]
    rw [List.length_cons, e1]
    simp only [parseFields, parseStr_encStr, hJ v (encJFields fs ++ r) hv,
      ih r (fun q hq => h q (List.mem_cons_of_mem (k, v) hq))]

theorem parseJ_encJ : ∀ (f : Nat) (v : JValue) (r : List Nat), szJ v ≤ f →
    parseJ f (encJ v ++ r) = some (v, r) := by
  intro f
  induction f with
  | zero =>
    intro v r h
    exact absurd h (by have := szJ_pos v; omega)
  | succ f ih =>
    intro v r h
    cases v with
    | null => simp [encJ, parseJ]
    | bool b => cases b <;> simp [encJ, parseJ]
    | num n =>
      have e1 : encJ (.num n) ++ r =
          2 :: (if n < 0 then 1 else 0) :: n.natAbs :: r := by
        simp [encJ]
      rw [e1]
      by_cases hn : n < 0
      · rw [if_pos hn]
        simp [parseJ, -Int.natCast_natAbs]
        omega
      · rw [if_neg hn]
        simp [parseJ, -Int.natCast_natAbs]
        omega
    | str s =>
      have e1 : encJ (.str s) ++ r = 3 :: (encStr s ++ r) := by simp [encJ]
      rw [e1]
      simp only [parseJ]
      rw [parseStr_encStr]
    | arr items =>
      have hs : szItems items ≤ f := by
        simp only [szJ] at h
        omega
      have hmem : ∀ v ∈ items, szJ v ≤ f :=
        fun v hv => le_trans (szJ_le_szItems hv) hs
      have e1 : encJ (.arr items) ++ r =
          4 :: items.length :: (encJItems items ++ r) := by simp [encJ]
      rw [e1]
      simp only [parseJ]
      rw [parseItems_enc f ih items r hmem]
    | obj fields =>
      have hs : szFields fields ≤ f := by
        simp only [szJ] at h
        omega
      have hmem : ∀ p ∈ fields, szJ p.2 ≤ f := by
        intro p hp
        rcases p with ⟨k, v⟩
        exact le_trans (szJ_le_szFields hp) hs
      have e1 : encJ (.obj fields) ++ r =
          5 :: fields.length :: (encJFields fields ++ r) := by simp [encJ]
      rw [e1]
      simp only [parseJ]
      rw [parseFields_enc f ih fields r hmem]

/-- Modelled from the spec: the JSON serialization of one Message — the
payload of a plaintext frame and the plaintext of an encrypted one
(spec §4.1, §6 wire format). -/
def serializeMessage (m : Message) : List Nat :=
  encStr m.event ++ (match m.data with | none => [0] | some v => 1 :: encJ v)

/-- Modelled from the spec: parsing one Message from a frame payload; a
payload that is not exactly one serialized Message is rejected (spec §3:
"a frame decodes to exactly one Message or is rejected"). -/
def parseMessage (bs : List Nat) : Option Message :=
  match parseStr bs with
  | some (e, [0]) => some ⟨e, none⟩
  | some (e, 1 :: r) =>
    match parseJ r.length r with
    | some (v, []) => some ⟨e, some v⟩
    | _ => none
  | _ => none

theorem parseMessage_serializeMessage (m : Message) :
    parseMessage (serializeMessage m) = some m := by
  rcases m with ⟨e, d⟩
  cases d with
  | none => simp [serializeMessage, parseMessage, parseStr_encStr]
  | some v =>
    have h2 : parseJ (encJ v).length (encJ v) = some (v, []) := by
      have h := parseJ_encJ (encJ v).length v [] (szJ_le_len v)
      simpa using h
    simp [serializeMessage, parseMessage, parseStr_encStr, h2]

/-- Modelled from the spec: the guarantee that a serialized payload never
contains an unescaped delimiter byte (spec §4.1: "JSON serialization never
emits raw newline characters, so newline is a safe, simple delimiter").
The escaping is modelled as shifting every abstract byte past the
delimiter value. -/
def escapePayload (bs : List Nat) : List Nat := bs.map (fun b => b + 11)

/-- Inverse of `escapePayload`, applied by the decoder. -/
def unescapePayload (bs : List Nat) : List Nat := bs.map (fun b => b - 11)

/-- The frame delimiter byte: line feed (spec §4.1). -/
def delimiter : Nat := 10

theorem unescape_escape (bs : List Nat) :
    unescapePayload (escapePayload bs) = bs := by
  simp [unescapePayload, escapePayload, List.map_map, Function.comp_def]

theorem escape_no_delim (bs : List Nat) :
    ∀ b ∈ escapePayload bs, (b != delimiter) = true := by
  intro b hb
  simp only [escapePayload, List.mem_map] at hb
  obtain ⟨a, _, rfl⟩ := hb
  simp only [delimiter, bne_iff_ne, ne_eq]
  omega

/-- Modelled from the spec: a wire frame is the escaped payload followed by
one delimiter byte (spec §4.1, §6). -/
def mkFrame (payload : List Nat) : List Nat :=
  escapePayload payload ++ [delimiter]

/-- Modelled from the spec: the decoder's frame splitter — it accepts
exactly one delimited frame and recovers the unescaped payload; anything
else is rejected. -/
def splitFrame (bs : List Nat) : Option (List Nat) :=
  let p := bs.takeWhile (fun b => b != delimiter)
  if bs = p ++ [delimiter] then some (unescapePayload p) else none

theorem takeWhile_of_all {p : Nat → Bool} :
    ∀ (xs ys : List Nat), (∀ x ∈ xs, p x = true) → p 10 = false → ys = [10] →
      (xs ++ ys).takeWhile p = xs := by
  intro xs
  induction xs with
  | nil =>
    intro ys _ h10 hys
    subst hys
    simp [List.takeWhile, h10]
  | cons x xs ih =>
    intro ys h h10 hys
    have hx : p x = true := h x (List.mem_cons_self x xs)
    simp only [List.cons_append, List.takeWhile_cons, hx, if_true]
    rw [ih ys (fun a ha => h a (List.mem_cons_of_mem x ha)) h10 hys]

theorem splitFrame_mkFrame (payload : List Nat) :
    splitFrame (mkFrame payload) = some payload := by
  have htw : (escapePayload payload ++ [delimiter]).takeWhile
      (fun b => b != delimiter) = escapePayload payload := by
    apply takeWhile_of_all
    · exact escape_no_delim payload
    · simp [delimiter]
    · simp [delimiter]
  simp [splitFrame, mkFrame, htw, unescape_escape]

/-- Modelled from the spec: the key derived from a UTF-8 password and salt
by a password-based KDF — PBKDF2 with SHA-256-based HMAC, at least 200,000
iterations, 256-bit output (spec §4.1, README Security).  The KDF is
modelled as ideal: the derived key records the exact password bytes and
salt it was derived from (so equal inputs give the equal key and distinct
passwords give distinct keys), and `keyMaterial` gives its numeric 256-bit
key material by iterating the modelled HMAC step `pbkdf2Iterations`
times. -/
structure Key where
  pw : List Nat
  salt : List Nat
deriving DecidableEq

/-- Iteration count of the modelled PBKDF2 (spec: "at least 200,000
iterations"). -/
def pbkdf2Iterations : Nat := 200000

/-- Output size of the modelled PBKDF2 in bits (spec: "output 256 bits"). -/
def derivedKeyBits : Nat := 256

/-- Modelled from the spec: one HMAC-SHA256 step of PBKDF2, modelled as a
numeric mixing step reduced modulo `2 ^ derivedKeyBits`. -/
def hmacStep (seed acc : Nat) : Nat :=
  (acc * 2654435761 + seed + 1) % 2 ^ derivedKeyBits

/-- Pack a byte list into one number (model device for seeding the PRF
and keystream). -/
def packBytes (bs : List Nat) : Nat :=
  bs.foldl (fun a b => (a + b + 1) * 65536) 1

/-- The numeric 256-bit key material of a derived key. -/
def keyMaterial (k : Key) : Nat :=
  (hmacStep (packBytes k.pw + 3 * packBytes k.salt))^[pbkdf2Iterations] 0

/-- The UTF-8 code points of a password string. -/
def pwBytes (password : String) : List Nat :=
  password.toList.map Char.toNat

/-- Modelled from the spec: key derivation from a password and salt
(spec §4.1: "Both peers must derive the identical key from the identical
password"). -/
def deriveKey (password : String) (salt : List Nat) : Key :=
  ⟨pwBytes password, salt⟩

theorem pwBytes_injective {p1 p2 : String} (h : pwBytes p1 = pwBytes p2) :
    p1 = p2 := by
  have h2 := congrArg (List.map Char.ofNat) h
  simp only [pwBytes, List.map_map, Function.comp_def, Char.ofNat_toNat,
    List.map_id'] at h2
  calc p1 = String.mk p1.toList := (stringMk_toList p1).symm
    _ = String.mk p2.toList := congrArg String.mk h2
    _ = p2 := stringMk_toList p2

/-- Modelled from the spec: the per-message keystream of the
authenticated-encryption cipher (AES-256-GCM in the spec), as a per-index
pad derived from the 256-bit key material and the nonce. -/
def ksByte (k : Key) (iv : List Nat) (i : Nat) : Nat :=
  (keyMaterial k + packBytes iv + i * 131) % 256

/-- XOR a byte list against the keystream, starting at stream index `i`.
Applied once it encrypts, applied twice it is the identity. -/
def xorKS (k : Key) (iv : List Nat) : Nat → List Nat → List Nat
  | _, [] => []
  | i, b :: bs => (b ^^^ ksByte k iv i) :: xorKS k iv (i + 1) bs

theorem xorKS_xorKS (k : Key) (iv : List Nat) :
    ∀ (i : Nat) (bs : List Nat), xorKS k iv i (xorKS k iv i bs) = bs := by
  intro i bs
  induction bs generalizing i with
  | nil => simp [xorKS]
  | cons b bs ih => simp [xorKS, Nat.xor_cancel_right, ih]

theorem xorKS_length (k : Key) (iv : List Nat) :
    ∀ (i : Nat) (bs : List Nat), (xorKS k iv i bs).length = bs.length := by
  intro i bs
  induction bs generalizing i with
  | nil => simp [xorKS]
  | cons b bs ih => simp [xorKS, ih]

/-- Modelled from the spec: the encryption Envelope
`{ iv, authTag, ciphertext }` (spec §3). -/
structure Envelope where
  iv : List Nat
  tag : List Nat
  ct : List Nat

/-- Injective fingerprint of a key (length-prefixed password bytes and
salt), the key's contribution to the modelled authentication tag. -/
def keyFingerprint (k : Key) : List Nat :=
  k.pw.length :: (k.pw ++ k.salt.length :: k.salt)

theorem keyFingerprint_injective {k1 k2 : Key}
    (h : keyFingerprint k1 = keyFingerprint k2) : k1 = k2 := by
  simp only [keyFingerprint, List.cons.injEq] at h
  obtain ⟨hlen, happ⟩ := h
  obtain ⟨hpw, hrest⟩ := List.append_inj happ hlen
  simp only [List.cons.injEq] at hrest
  rcases k1 with ⟨pw1, s1⟩
  rcases k2 with ⟨pw2, s2⟩
  simp_all

/-- Modelled from the spec: the 128-bit GCM authentication tag over the
nonce and ciphertext under the key, modelled as an ideal MAC that binds
the key, nonce and ciphertext exactly (spec §3: "authTag verification must
succeed before ciphertext is trusted"). -/
def authTag (k : Key) (iv ct : List Nat) : List Nat :=
  keyFingerprint k ++ (iv.length :: iv ++ ct)

theorem authTag_key_inj {k1 k2 : Key} {iv ct : List Nat}
    (h : authTag k1 iv ct = authTag k2 iv ct) : k1 = k2 :=
  keyFingerprint_injective (List.append_cancel_right h)

/-- Modelled from the spec: authenticated encryption of a plaintext with a
fresh nonce `iv`, producing the Envelope (spec §4.1: 96-bit random nonce
per message, 128-bit tag). -/
def encrypt (k : Key) (iv : List Nat) (pt : List Nat) : Envelope :=
  let ct := xorKS k iv 0 pt
  ⟨iv, authTag k iv ct, ct⟩

/-- Modelled from the spec: authenticated decryption — the tag is verified
first, and only on success is the ciphertext decrypted (spec §3). -/
def decrypt (k : Key) (env : Envelope) : Option (List Nat) :=
  if env.tag = authTag k env.iv env.ct then some (xorKS k env.iv 0 env.ct)
  else none

/-- Modelled from the spec: the JSON serialization of an Envelope into a
frame payload (spec §6: encrypted wire format `{iv, tag, ct}`), as a
length-prefixed concatenation. -/
def encodeEnvelope (env : Envelope) : List Nat :=
  env.iv.length :: (env.iv ++ env.tag.length :: (env.tag ++ env.ct))

/-- Read one length-prefixed chunk of a payload. -/
def readChunk (bs : List Nat) : Option (List Nat × List Nat) :=
  match bs with
  | [] => none
  | n :: r => if n ≤ r.length then some (r.take n, r.drop n) else none

theorem readChunk_spec (xs ys : List Nat) :
    readChunk (xs.length :: (xs ++ ys)) = some (xs, ys) := by
  simp only [readChunk]
  rw [if_pos (by simp)]
  rw [List.take_left' rfl, List.drop_left' rfl]

/-- Parse an Envelope back from a frame payload. -/
def parseEnvelope (bs : List Nat) : Option Envelope :=
  match readChunk bs with
  | none => none
  | some (iv, r) =>
    match readChunk r with
    | none => none
    | some (tag, ct) => some ⟨iv, tag, ct⟩

theorem parseEnvelope_encodeEnvelope (env : Envelope) :
    parseEnvelope (encodeEnvelope env) = some env := by
  rcases env with ⟨iv, tag, ct⟩
  simp only [encodeEnvelope, parseEnvelope, readChunk_spec]

/-- Modelled from the spec: frame decoding errors (spec §4.1): a frame is
malformed, or its authentication tag fails to verify.  There is no other
error kind — in particular no explicit wrong-password signal. -/
inductive FrameError where
  | malformed : FrameError
  | authFailed : FrameError
deriving DecidableEq

/-- Modelled from the spec: Framer `encode(Message, key?) -> Frame`
(spec §4.1).  Without a key the frame is the serialized Message, escaped
and delimited; with a key the serialized Message is encrypted under the
key with the fresh nonce `iv` into an Envelope, which is serialized,
escaped and delimited. -/
def encode (m : Message) (k : Option Key) (iv : List Nat) : List Nat :=
  match k with
  | none => mkFrame (serializeMessage m)
  | some key => mkFrame (encodeEnvelope (encrypt key iv (serializeMessage m)))

/-- Modelled from the spec: Framer `decode(Frame, key?) -> Message |
FrameError` (spec §4.1).  The authentication tag is verified before the
ciphertext is trusted; a tag mismatch is `authFailed` (the frame is
discarded, never partially processed), any parse failure is
`malformed`. -/
def decode (bs : List Nat) (k : Option Key) : Except FrameError Message :=
  match splitFrame bs with
  | none => .error .malformed
  | some payload =>
    match k with
    | none =>
      match parseMessage payload with
      | some m => .ok m
      | none => .error .malformed
    | some key =>
      match parseEnvelope payload with
      | none => .error .malformed
      | some env =>
        match decrypt key env with
        | none => .error .authFailed
        | some pt =>
          match parseMessage pt with
          | some m => .ok m
          | none => .error .malformed

/-- Flip bit `j` of the byte at position `i` of a byte list. -/
def flipBit (i j : Nat) (bs : List Nat) : List Nat :=
  bs.set i (bs.getD i 0 ^^^ 2 ^ j)

theorem flipBit_ne (i j : Nat) (bs : List Nat) (h : i < bs.length) :
    flipBit i j bs ≠ bs := by
  intro heq
  have h2 : (flipBit i j bs).getD i 0 = bs.getD i 0 := by rw [heq]
  have h3 : (flipBit i j bs).getD i 0 = bs.getD i 0 ^^^ 2 ^ j := by
    simp [flipBit, List.getD_eq_getElem?_getD, List.getElem?_set_self' ,
      List.getElem?_eq_getElem h]
  rw [h3] at h2
  have h4 : bs.getD i 0 ^^^ (bs.getD i 0 ^^^ 2 ^ j) =
      bs.getD i 0 ^^^ bs.getD i 0 := by rw [h2]
  rw [Nat.xor_cancel_left, Nat.xor_self] at h4
  exact absurd h4 (Nat.pos_iff_ne_zero.mp (Nat.pos_pow_of_pos j (by omega)))

theorem encrypt_ct_length (k : Key) (iv pt : List Nat) :
    (encrypt k iv pt).ct.length = pt.length := by
  simp [encrypt, xorKS_length]

theorem authTag_length (k : Key) (iv ct : List Nat) :
    (authTag k iv ct).length =
      (keyFingerprint k).length + iv.length + 1 + ct.length := by
  simp [authTag]
  omega

theorem authTag_ct_inj {k : Key} {iv ct ct' : List Nat}
    (h : authTag k iv ct = authTag k iv ct') : ct = ct' := by
  simp only [authTag] at h
  have h2 := List.append_cancel_left h
  have h3 : iv ++ ct = iv ++ ct' := by injection h2
  exact List.append_cancel_left h3

/-- C1: for every Message `m` and every key `k` — including the no-key
plaintext case — and every nonce, decoding the frame produced by encoding
`m` with `k` yields exactly `m`. -/
theorem decode_encode_roundtrip (m : Message) (k : Option Key)
    (iv : List Nat) : decode (encode m k iv) k = .ok m := by
  cases k with
  | none =>
    simp only [encode, decode, splitFrame_mkFrame,
      parseMessage_serializeMessage]
  | some key =>
    have hdec : decrypt key (encrypt key iv (serializeMessage m)) =
        some (serializeMessage m) := by
      simp [decrypt, encrypt, xorKS_xorKS]
    simp only [encode, decode, splitFrame_mkFrame,
      parseEnvelope_encodeEnvelope, hdec, parseMessage_serializeMessage]

/-- C2: flipping any single bit of the ciphertext or of the authentication
tag of the Envelope produced by encoding `m` under key `k` makes decoding
the altered frame with `k` return `authFailed` — never a successfully
decoded Message.  The first two conjuncts relate the ciphertext and tag
lengths to the stated index bounds. -/
theorem tamper_detection (m : Message) (k : Key) (iv : List Nat)
    (i j : Nat) :
    (encrypt k iv (serializeMessage m)).ct.length =
      (serializeMessage m).length ∧
    (encrypt k iv (serializeMessage m)).tag.length =
      (keyFingerprint k).length + iv.length + 1 +
        (serializeMessage m).length ∧
    (i < (serializeMessage m).length →
      decode (mkFrame (encodeEnvelope
        { encrypt k iv (serializeMessage m) with
          ct := flipBit i j (encrypt k iv (serializeMessage m)).ct }))
        (some k) = .error .authFailed) ∧
    (i < (keyFingerprint k).length + iv.length + 1 +
        (serializeMessage m).length →
      decode (mkFrame (encodeEnvelope
        { encrypt k iv (serializeMessage m) with
          tag := flipBit i j (encrypt k iv (serializeMessage m)).tag }))
        (some k) = .error .authFailed) := by
  set pt := serializeMessage m with hpt
  have hctlen : (encrypt k iv pt).ct.length = pt.length :=
    encrypt_ct_length k iv pt
  have htaglen : (encrypt k iv pt).tag.length =
      (keyFingerprint k).length + iv.length + 1 + pt.length := by
    simp only [encrypt]
    rw [authTag_length, xorKS_length]
  refine ⟨hctlen, htaglen, ?_, ?_⟩
  · intro hi
    have hautherr :
        decrypt k { encrypt k iv pt with
          ct := flipBit i j (encrypt k iv pt).ct } = none := by
      simp only [decrypt, encrypt]
      rw [if_neg]
      intro hcontra
      have hne : flipBit i j (xorKS k iv 0 pt) ≠ xorKS k iv 0 pt :=
        flipBit_ne i j _ (by rw [xorKS_length]; exact hi)
      exact hne (authTag_ct_inj hcontra).symm
    simp only [decode, splitFrame_mkFrame, parseEnvelope_encodeEnvelope,
      hautherr]
  · intro hi
    have hautherr :
        decrypt k { encrypt k iv pt with
          tag := flipBit i j (encrypt k iv pt).tag } = none := by
      simp only [decrypt, encrypt]
      rw [if_neg]
      exact flipBit_ne i j _ (by rw [authTag_length, xorKS_length]; omega)
    simp only [decode, splitFrame_mkFrame, parseEnvelope_encodeEnvelope,
      hautherr]

/-- C2 witness: a concrete tampered frame (bit 3 of byte 0 of the
ciphertext, and of the tag) is rejected with `authFailed`. -/
theorem tamper_detection_witness :
    decode (mkFrame (encodeEnvelope
      { encrypt ⟨[9], [4]⟩ [1, 2] (serializeMessage ⟨"e", none⟩) with
        ct := flipBit 0 3
          (encrypt ⟨[9], [4]⟩ [1, 2] (serializeMessage ⟨"e", none⟩)).ct }))
      (some ⟨[9], [4]⟩) = .error .authFailed ∧
    decode (mkFrame (encodeEnvelope
      { encrypt ⟨[9], [4]⟩ [1, 2] (serializeMessage ⟨"e", none⟩) with
        tag := flipBit 0 3
          (encrypt ⟨[9], [4]⟩ [1, 2] (serializeMessage ⟨"e", none⟩)).tag }))
      (some ⟨[9], [4]⟩) = .error .authFailed :=
  ⟨(tamper_detection ⟨"e", none⟩ ⟨[9], [4]⟩ [1, 2] 0 3).2.2.1 (by decide),
   (tamper_detection ⟨"e", none⟩ ⟨[9], [4]⟩ [1, 2] 0 3).2.2.2 (by decide)⟩

/-- C3: two peers that derived their keys from distinct passwords (and the
same salt): every decode of a frame encoded under one password, performed
with the key of the other, returns `authFailed`; and decode is total with
exactly the outcomes Message, `malformed` or `authFailed` — there is no
distinct wrong-password signal. -/
theorem mismatched_passwords (p1 p2 : String) (salt : List Nat)
    (m : Message) (iv : List Nat) (h : p1 ≠ p2) :
    decode (encode m (some (deriveKey p1 salt)) iv)
      (some (deriveKey p2 salt)) = .error .authFailed ∧
    (∀ (bs : List Nat) (k : Option Key),
      (∃ m', decode bs k = .ok m') ∨ decode bs k = .error .malformed ∨
        decode bs k = .error .authFailed) := by
  constructor
  · have hkeys : deriveKey p1 salt ≠ deriveKey p2 salt := by
      intro hcontra
      apply h
      apply pwBytes_injective
      simpa [deriveKey] using congrArg Key.pw hcontra
    have hautherr : decrypt (deriveKey p2 salt)
        (encrypt (deriveKey p1 salt) iv (serializeMessage m)) = none := by
      simp only [decrypt, encrypt]
      rw [if_neg]
      intro hcontra
      exact hkeys (authTag_key_inj hcontra)
    simp only [encode, decode, splitFrame_mkFrame,
      parseEnvelope_encodeEnvelope, hautherr]
  · intro bs k
    rcases hd : decode bs k with e | m'
    · cases e
      · exact Or.inr (Or.inl rfl)
      · exact Or.inr (Or.inr rfl)
    · exact Or.inl ⟨m', rfl⟩

/-- C3 witness: concrete distinct passwords over the same salt. -/
theorem mismatched_passwords_witness :
    decode (encode ⟨"e", none⟩ (some (deriveKey "alpha" [7])) [1, 2])
      (some (deriveKey "beta" [7])) = .error .authFailed ∧
    (∀ (bs : List Nat) (k : Option Key),
      (∃ m', decode bs k = .ok m') ∨ decode bs k = .error .malformed ∨
        decode bs k = .error .authFailed) :=
  mismatched_passwords "alpha" "beta" [7] ⟨"e", none⟩ [1, 2] (by decide)

/-- C4: key derivation is a deterministic function of the password and
salt, modelled after PBKDF2 with SHA-256-based HMAC: the modelled
iteration count is at least 200,000, the key material is 256 bits, and two
peers with the identical password and salt derive the identical key. -/
theorem key_derivation_spec :
    200000 ≤ pbkdf2Iterations ∧ derivedKeyBits = 256 ∧
    (∀ (p : String) (s : List Nat),
      keyMaterial (deriveKey p s) < 2 ^ derivedKeyBits) ∧
    (∀ (p1 p2 : String) (s1 s2 : List Nat), p1 = p2 → s1 = s2 →
      deriveKey p1 s1 = deriveKey p2 s2) := by
  refine ⟨le_refl _, rfl, ?_, ?_⟩
  · intro p s
    have h2 : keyMaterial (deriveKey p s) =
        hmacStep (packBytes (deriveKey p s).pw +
            3 * packBytes (deriveKey p s).salt)
          ((hmacStep (packBytes (deriveKey p s).pw +
            3 * packBytes (deriveKey p s).salt))^[199999] 0) := by
      rw [keyMaterial, show pbkdf2Iterations = 199999 + 1 from rfl]
      exact Function.iterate_succ_apply' _ _ _
    rw [h2, hmacStep]
    exact Nat.mod_lt _ (Nat.pos_pow_of_pos _ (by omega))
  · intro p1 p2 s1 s2 h1 h2
    rw [h1, h2]

/-- Modelled from the spec: the Connection state machine's states
(spec §4.2: Connecting → Established → Closing → Closed). -/
inductive ConnState where
  | connecting : ConnState
  | established : ConnState
  | closing : ConnState
  | closed : ConnState
deriving DecidableEq

/-- Modelled from the spec: a server-side Connection as the Session
Registry sees it — an identifier, its state-machine state, its close
reason once closed, and whether writes to its duplex handle fail (a dead
peer, spec §4.4). -/
structure Conn where
  cid : Nat
  state : ConnState
  closeReason : Option String
  broken : Bool
deriving DecidableEq

/-- Force-close a Connection with a reason (spec §4.4). -/
def closeConn (c : Conn) (reason : String) : Conn :=
  { c with state := .closed, closeReason := some reason }

/-- Modelled from the spec: the server-side Session Registry, a mapping
identity → Connection (spec §3, §4.4). -/
structure Registry where
  entries : List (String × Conn)
deriving DecidableEq

/-- The registry invariant: identities (keys) are pairwise distinct, so
each identity maps to at most one Connection (spec §3: "keys unique, one
live Connection per identity at any instant"). -/
def uniqueKeys (r : Registry) : Prop :=
  r.entries.Pairwise (fun a b => a.1 ≠ b.1)

instance (r : Registry) : Decidable (uniqueKeys r) := by
  unfold uniqueKeys
  infer_instance

/-- Modelled from the spec: `lookup(identity) -> Connection?`
(spec §4.4). -/
def lookup (r : Registry) (idy : String) : Option Conn :=
  (r.entries.find? (fun e => e.1 == idy)).map (fun e => e.2)

/-- Modelled from the spec: `register(identity, Connection)` — if the
identity is already present, the existing Connection is force-closed with
reason "superseded by reconnect" and evicted before the new one is
installed (spec §4.4).  Returns the new registry and the evicted, closed
Connection if there was one. -/
def register (r : Registry) (idy : String) (c : Conn) :
    Registry × Option Conn :=
  match r.entries.find? (fun e => e.1 == idy) with
  | some old =>
    (⟨(idy, c) :: r.entries.filter (fun e => e.1 != idy)⟩,
     some (closeConn old.2 "superseded by reconnect"))
  | none => (⟨(idy, c) :: r.entries⟩, none)

/-- Modelled from the spec: `unregister(identity)`, idempotent removal
(spec §4.4). -/
def unregister (r : Registry) (idy : String) : Registry :=
  ⟨r.entries.filter (fun e => e.1 != idy)⟩

theorem countP_filter_ne_zero (l : List (String × Conn)) (idy : String) :
    (l.filter (fun e => e.1 != idy)).countP (fun e => e.1 == idy) = 0 := by
  rw [List.countP_eq_zero]
  intro e he
  have h2 := (List.mem_filter.mp he).2
  simp only [bne_iff_ne, ne_eq] at h2
  simpa using h2

theorem register_countP (r : Registry) (idy : String) (c : Conn) :
    (register r idy c).1.entries.countP (fun e => e.1 == idy) = 1 := by
  rcases hf : r.entries.find? (fun e => e.1 == idy) with _ | old
  · have hz : r.entries.countP (fun e => e.1 == idy) = 0 := by
      rw [List.countP_eq_zero]
      intro e he
      exact List.find?_eq_none.mp hf e he
    simp [register, hf, List.countP_cons, hz]
  · simp [register, hf, List.countP_cons, countP_filter_ne_zero]

theorem register_uniqueKeys {r : Registry} (idy : String) (c : Conn)
    (h : uniqueKeys r) : uniqueKeys (register r idy c).1 := by
  rcases hf : r.entries.find? (fun e => e.1 == idy) with _ | old
  · simp only [register, hf, uniqueKeys]
    refine List.Pairwise.cons ?_ h
    intro e he
    have h2 := List.find?_eq_none.mp hf e he
    simp only [beq_iff_eq] at h2
    exact fun hx => h2 hx.symm
  · simp only [register, hf, uniqueKeys]
    refine List.Pairwise.cons ?_ (List.Pairwise.filter _ h)
    intro e he
    have h2 := (List.mem_filter.mp he).2
    simp only [bne_iff_ne, ne_eq] at h2
    exact fun hx => h2 hx.symm

theorem find?_register_self (r : Registry) (idy : String) (c : Conn) :
    (register r idy c).1.entries.find? (fun e => e.1 == idy) =
      some (idy, c) := by
  rcases hf : r.entries.find? (fun e => e.1 == idy) with _ | old <;>
    simp [register, hf, List.find?_cons_of_pos]

theorem register_snd_eq (r : Registry) (idy : String) (c : Conn)
    (old : String × Conn)
    (hf : r.entries.find? (fun e => e.1 == idy) = some old) :
    (register r idy c).2 =
      some (closeConn old.2 "superseded by reconnect") := by
  simp [register, hf]

/-- C5: the Session Registry keeps at most one live Connection per
identity: `register` preserves key uniqueness and leaves exactly one entry
for the registered identity; registering identity `X` a second time
force-closes and evicts the first Connection with reason "superseded by
reconnect" before installing the new one, so after registering `X` twice
exactly one Connection (the second) is registered for `X`. -/
theorem register_single_active (r : Registry) (x : String) (c1 c2 : Conn)
    (h : uniqueKeys r) :
    uniqueKeys (register r x c1).1 ∧
    (register r x c1).1.entries.countP (fun e => e.1 == x) = 1 ∧
    (register (register r x c1).1 x c2).2 =
      some (closeConn c1 "superseded by reconnect") ∧
    (closeConn c1 "superseded by reconnect").state = .closed ∧
    (closeConn c1 "superseded by reconnect").closeReason =
      some "superseded by reconnect" ∧
    uniqueKeys (register (register r x c1).1 x c2).1 ∧
    (register (register r x c1).1 x c2).1.entries.countP
      (fun e => e.1 == x) = 1 ∧
    lookup (register (register r x c1).1 x c2).1 x = some c2 := by
  have h1 : uniqueKeys (register r x c1).1 := register_uniqueKeys x c1 h
  refine ⟨h1, register_countP r x c1, ?_, rfl, rfl,
    register_uniqueKeys x c2 h1, register_countP _ x c2, ?_⟩
  · exact register_snd_eq _ x c2 (x, c1) (find?_register_self r x c1)
  · simp [lookup, find?_register_self (register r x c1).1 x c2]

/-- C5 witness: registering "x" twice over a concrete one-entry
registry. -/
theorem register_single_active_witness :
    uniqueKeys (register (Registry.mk [("other", ⟨0, .established, none, false⟩)])
      "x" ⟨1, .established, none, false⟩).1 ∧
    (register (Registry.mk [("other", ⟨0, .established, none, false⟩)])
      "x" ⟨1, .established, none, false⟩).1.entries.countP
      (fun e => e.1 == "x") = 1 ∧
    (register (register (Registry.mk [("other", ⟨0, .established, none, false⟩)])
      "x" ⟨1, .established, none, false⟩).1 "x"
      ⟨2, .established, none, false⟩).2 =
      some (closeConn ⟨1, .established, none, false⟩
        "superseded by reconnect") ∧
    (closeConn (⟨1, .established, none, false⟩ : Conn)
      "superseded by reconnect").state = .closed ∧
    (closeConn (⟨1, .established, none, false⟩ : Conn)
      "superseded by reconnect").closeReason =
      some "superseded by reconnect" ∧
    uniqueKeys (register (register (Registry.mk
      [("other", ⟨0, .established, none, false⟩)])
      "x" ⟨1, .established, none, false⟩).1 "x"
      ⟨2, .established, none, false⟩).1 ∧
    (register (register (Registry.mk [("other", ⟨0, .established, none, false⟩)])
      "x" ⟨1, .established, none, false⟩).1 "x"
      ⟨2, .established, none, false⟩).1.entries.countP
      (fun e => e.1 == "x") = 1 ∧
    lookup (register (register (Registry.mk
      [("other", ⟨0, .established, none, false⟩)])
      "x" ⟨1, .established, none, false⟩).1 "x"
      ⟨2, .established, none, false⟩).1 "x" =
      some ⟨2, .established, none, false⟩ :=
  register_single_active (Registry.mk [("other", ⟨0, .established, none, false⟩)])
    "x" ⟨1, .established, none, false⟩ ⟨2, .established, none, false⟩
    (by decide)

/-- Modelled from the spec: one `emit` on a Connection succeeds unless the
peer's transport write fails (spec §4.2, §4.4: per-connection emit
failures during broadcast). -/
def emitOk (c : Conn) : Bool := !c.broken

/-- Modelled from the spec: the broadcast's enumeration of all currently
registered Connections except the excluded identity, if any
(spec §4.4). -/
def broadcastTargets (r : Registry) (excl : Option String) :
    List (String × Conn) :=
  match excl with
  | some a => r.entries.filter (fun e => e.1 != a)
  | none => r.entries

/-- Modelled from the spec: broadcast calls `emit` on every enumerated
Connection in turn; a per-connection failure is recorded and the iteration
continues to the remaining Connections — failures are reported in the
result, not thrown (spec §4.4).  Returns the delivered
(identity, Message) pairs and the identities whose emit failed. -/
def broadcastRun (msg : Message) :
    List (String × Conn) → List (String × Message) × List String
  | [] => ([], [])
  | (idy, c) :: rest =>
    let out := broadcastRun msg rest
    if emitOk c then ((idy, msg) :: out.1, out.2) else (out.1, idy :: out.2)

/-- Modelled from the spec: `broadcast(event, data, excludeIdentity?)`
(spec §4.4; `broadcastAll` / `broadcastExcept` in
src/cjs/index.d.ts). -/
def broadcast (r : Registry) (ev : String) (d : Option JValue)
    (excl : Option String) : List (String × Message) × List String :=
  broadcastRun ⟨ev, d⟩ (broadcastTargets r excl)

theorem broadcastRun_mem_delivered (msg : Message) :
    ∀ (ts : List (String × Conn)) (idy : String) (c : Conn),
      (idy, c) ∈ ts → emitOk c = true →
      (idy, msg) ∈ (broadcastRun msg ts).1 := by
  intro ts
  induction ts with
  | nil => intro idy c h; cases h
  | cons e rest ih =>
    intro idy c h hok
    rcases e with ⟨idy', c'⟩
    rcases List.mem_cons.mp h with h' | h'
    · cases h'
      simp [broadcastRun, hok]
    · by_cases hok' : emitOk c' = true <;>
        simp [broadcastRun, hok', ih idy c h' hok]

theorem broadcastRun_mem_failed (msg : Message) :
    ∀ (ts : List (String × Conn)) (idy : String) (c : Conn),
      (idy, c) ∈ ts → emitOk c = false →
      idy ∈ (broadcastRun msg ts).2 := by
  intro ts
  induction ts with
  | nil => intro idy c h; cases h
  | cons e rest ih =>
    intro idy c h hbad
    rcases e with ⟨idy', c'⟩
    rcases List.mem_cons.mp h with h' | h'
    · cases h'
      simp [broadcastRun, hbad]
    · by_cases hok' : emitOk c' = true <;>
        simp [broadcastRun, hok', ih idy c h' hbad]

theorem broadcastRun_mem_inv (msg : Message) :
    ∀ (ts : List (String × Conn)) (idy : String),
      ((∃ m', (idy, m') ∈ (broadcastRun msg ts).1) ∨
        idy ∈ (broadcastRun msg ts).2) →
      ∃ c, (idy, c) ∈ ts := by
  intro ts
  induction ts with
  | nil => intro idy h; simp [broadcastRun] at h
  | cons e rest ih =>
    intro idy h
    rcases e with ⟨idy', c'⟩
    by_cases hok : emitOk c' = true
    · simp only [broadcastRun, hok, if_true] at h
      rcases h with ⟨m', hm⟩ | hm
      · rcases List.mem_cons.mp hm with h' | h'
        · rw [Prod.mk.injEq] at h'
          exact ⟨c', by rw [h'.1]; exact List.mem_cons_self _ _⟩
        · obtain ⟨c, hc⟩ := ih idy (Or.inl ⟨m', h'⟩)
          exact ⟨c, List.mem_cons_of_mem _ hc⟩
      · obtain ⟨c, hc⟩ := ih idy (Or.inr hm)
        exact ⟨c, List.mem_cons_of_mem _ hc⟩
    · simp only [broadcastRun, hok, if_false] at h
      rcases h with ⟨m', hm⟩ | hm
      · obtain ⟨c, hc⟩ := ih idy (Or.inl ⟨m', hm⟩)
        exact ⟨c, List.mem_cons_of_mem _ hc⟩
      · rcases List.mem_cons.mp hm with h' | h'
        · exact ⟨c', by rw [h']; exact List.mem_cons_self _ _⟩
        · obtain ⟨c, hc⟩ := ih idy (Or.inr h')
          exact ⟨c, List.mem_cons_of_mem _ hc⟩

theorem broadcastTargets_mem (r : Registry) (a : String) (idy : String)
    (c : Conn) :
    (idy, c) ∈ broadcastTargets r (some a) ↔
      (idy, c) ∈ r.entries ∧ idy ≠ a := by
  simp [broadcastTargets, List.mem_filter]

/-- C6: broadcast with an excluded identity `a` reaches every registered
identity other than `a` — each such identity either receives the Message
(its emit succeeded) or is reported as a failed delivery — and `a` itself
is never delivered to nor even attempted. -/
theorem broadcast_exclusion (r : Registry) (ev : String) (d : Option JValue)
    (a : String) :
    (∀ (idy : String) (c : Conn), (idy, c) ∈ r.entries → idy ≠ a →
      emitOk c = true → (idy, ⟨ev, d⟩) ∈ (broadcast r ev d (some a)).1) ∧
    (∀ (idy : String) (c : Conn), (idy, c) ∈ r.entries → idy ≠ a →
      emitOk c = false → idy ∈ (broadcast r ev d (some a)).2) ∧
    (∀ m', (a, m') ∉ (broadcast r ev d (some a)).1) ∧
    a ∉ (broadcast r ev d (some a)).2 := by
  refine ⟨?_, ?_, ?_, ?_⟩
  · intro idy c hmem hne hok
    exact broadcastRun_mem_delivered ⟨ev, d⟩ _ idy c
      ((broadcastTargets_mem r a idy c).mpr ⟨hmem, hne⟩) hok
  · intro idy c hmem hne hbad
    exact broadcastRun_mem_failed ⟨ev, d⟩ _ idy c
      ((broadcastTargets_mem r a idy c).mpr ⟨hmem, hne⟩) hbad
  · intro m' hcontra
    obtain ⟨c, hc⟩ := broadcastRun_mem_inv ⟨ev, d⟩ _ a (Or.inl ⟨m', hcontra⟩)
    exact ((broadcastTargets_mem r a a c).mp hc).2 rfl
  · intro hcontra
    obtain ⟨c, hc⟩ := broadcastRun_mem_inv ⟨ev, d⟩ _ a (Or.inr hcontra)
    exact ((broadcastTargets_mem r a a c).mp hc).2 rfl

/-- C7: per-connection emit failures during broadcast are isolated: every
enumerated Connection whose emit succeeds receives the Message no matter
which other Connections fail, every failing one is reported in the
result's failure list, and broadcast always returns (failures are
reported, not thrown). -/
theorem broadcast_failure_isolation (r : Registry) (ev : String)
    (d : Option JValue) (excl : Option String) :
    (∀ (idy : String) (c : Conn), (idy, c) ∈ broadcastTargets r excl →
      emitOk c = true → (idy, ⟨ev, d⟩) ∈ (broadcast r ev d excl).1) ∧
    (∀ (idy : String) (c : Conn), (idy, c) ∈ broadcastTargets r excl →
      emitOk c = false → idy ∈ (broadcast r ev d excl).2) := by
  constructor
  · intro idy c hmem hok
    exact broadcastRun_mem_delivered ⟨ev, d⟩ _ idy c hmem hok
  · intro idy c hmem hbad
    exact broadcastRun_mem_failed ⟨ev, d⟩ _ idy c hmem hbad

/-- Modelled from the spec: `disconnectClient(id, reason?)` of the
IPCServer — "Force disconnect a client by its ID … returns true if client
found and disconnected, else false" (declared in src/cjs/index.d.ts lines
131–137; the implementation is not among the repository's files).
Returns the flag, the resulting registry, and the closed Connection when
one was found. -/
def disconnectClient (r : Registry) (idy : String)
    (reason : Option String) : Bool × Registry × Option Conn :=
  match r.entries.find? (fun e => e.1 == idy) with
  | some old =>
    (true, ⟨r.entries.filter (fun e => e.1 != idy)⟩,
     some (closeConn old.2 (reason.getD "")))
  | none => (false, r, none)

/-- C10: `disconnectClient(id, reason?)` returns true exactly when a
client with that id is currently registered — in which case that client is
force-closed and removed from the registry — and returns false otherwise,
leaving the registry unchanged. -/
theorem disconnectClient_spec (r : Registry) (idy : String)
    (reason : Option String) :
    ((disconnectClient r idy reason).1 = true ↔
      (lookup r idy).isSome = true) ∧
    ((disconnectClient r idy reason).1 = false →
      (disconnectClient r idy reason).2.1 = r) ∧
    (∀ old : Conn, lookup r idy = some old →
      (disconnectClient r idy reason).1 = true ∧
      (disconnectClient r idy reason).2.2 =
        some (closeConn old (reason.getD "")) ∧
      (closeConn old (reason.getD "")).state = .closed ∧
      lookup (disconnectClient r idy reason).2.1 idy = none) := by
  rcases hf : r.entries.find? (fun e => e.1 == idy) with _ | old
  · refine ⟨?_, ?_, ?_⟩
    · simp [disconnectClient, hf, lookup]
    · intro _
      simp [disconnectClient, hf]
    · intro old hold
      rw [lookup, hf] at hold
      cases hold
  · have hnone : lookup (⟨r.entries.filter (fun e => e.1 != idy)⟩ : Registry)
        idy = none := by
      simp only [lookup, Option.map_eq_none']
      rw [List.find?_eq_none]
      intro e he
      have h2 := (List.mem_filter.mp he).2
      simpa using h2
    refine ⟨?_, ?_, ?_⟩
    · simp [disconnectClient, hf, lookup]
    · intro hcontra
      simp [disconnectClient, hf] at hcontra
    · intro o hold
      rw [lookup, hf] at hold
      simp only [Option.map_some'] at hold
      refine ⟨by simp [disconnectClient, hf], ?_, rfl, ?_⟩
      · simp [disconnectClient, hf]
        rw [← Option.some.injEq] at hold
        simp at hold
        rw [hold]
      · simpa [disconnectClient, hf] using hnone

/-- Modelled from the spec: the events a Connection's Heartbeat Monitor
observes after it sent a ping — an explicit pong, any other inbound
frame, or the expiry of the timeout deadline — each carrying its arrival
time (spec §4.3). -/
inductive HbEvent where
  | pong (t : Nat) : HbEvent
  | frame (t : Nat) : HbEvent
  | deadline (t : Nat) : HbEvent
deriving DecidableEq

/-- Whether an event is an ordinary (non-pong, non-deadline) inbound
frame. -/
def isFrame : HbEvent → Bool
  | .frame _ => true
  | _ => false

/-- Modelled from the spec: a Connection with an attached Heartbeat
Monitor that sent a ping at `pingAt` and expects a pong within `timeout`
(spec §4.3).  `disconnectedFired` counts `disconnected` notifications
(spec §4.2: fired exactly once on the transition to Closed);
`lastActivity` is the liveness evidence any inbound frame resets. -/
structure HbConn where
  connState : ConnState
  pingAt : Nat
  timeout : Nat
  pongReceived : Bool
  lastActivity : Nat
  disconnectedFired : Nat
  closedAt : Option Nat
  closeReason : Option String
deriving DecidableEq

/-- Modelled from the spec: one step of the Heartbeat Monitor.  Only an
explicit pong satisfies the outstanding ping (spec §4.3 policy: "only
explicit pong counts"); any other inbound frame resets the liveness
evidence only.  When the deadline fires with no pong received, the
Connection is declared dead: it transitions to Closed with reason
"heartbeat timeout" and the `disconnected` notification fires once
(spec §4.3, §4.2).  Events on a Connection that is no longer Established
do nothing. -/
def hbStep (s : HbConn) (e : HbEvent) : HbConn :=
  if s.connState ≠ .established then s
  else
    match e with
    | .pong t => { s with pongReceived := true, lastActivity := t }
    | .frame t => { s with lastActivity := t }
    | .deadline t =>
      if s.pongReceived then s
      else
        { s with
          connState := .closed
          closedAt := some t
          closeReason := some "heartbeat timeout"
          disconnectedFired := s.disconnectedFired + 1 }

/-- Run the Heartbeat Monitor over a sequence of events. -/
def hbRun (s : HbConn) : List HbEvent → HbConn
  | [] => s
  | e :: es => hbRun (hbStep s e) es

theorem hbRun_append (s : HbConn) (evs1 evs2 : List HbEvent) :
    hbRun s (evs1 ++ evs2) = hbRun (hbRun s evs1) evs2 := by
  induction evs1 generalizing s with
  | nil => rfl
  | cons e es ih => simp [hbRun, ih]

theorem hbStep_closed (s : HbConn) (e : HbEvent)
    (h : s.connState = .closed) : hbStep s e = s := by
  simp [hbStep, h]

theorem hbRun_closed (s : HbConn) (h : s.connState = .closed) :
    ∀ evs : List HbEvent, hbRun s evs = s := by
  intro evs
  induction evs with
  | nil => rfl
  | cons e es ih => simp [hbRun, hbStep_closed s e h, ih]

theorem hbRun_frames (s : HbConn) :
    ∀ evs : List HbEvent, (∀ e ∈ evs, isFrame e = true) →
      (hbRun s evs).connState = s.connState ∧
      (hbRun s evs).pingAt = s.pingAt ∧
      (hbRun s evs).timeout = s.timeout ∧
      (hbRun s evs).pongReceived = s.pongReceived ∧
      (hbRun s evs).disconnectedFired = s.disconnectedFired ∧
      (hbRun s evs).closedAt = s.closedAt ∧
      (hbRun s evs).closeReason = s.closeReason := by
  intro evs
  induction evs generalizing s with
  | nil => exact fun _ => ⟨rfl, rfl, rfl, rfl, rfl, rfl, rfl⟩
  | cons e es ih =>
    intro h
    have he : isFrame e = true := h e (List.mem_cons_self e es)
    have hrest := ih (hbStep s e) (fun x hx => h x (List.mem_cons_of_mem e hx))
    rcases e with t | t | t
    · simp [isFrame] at he
    · have hstep : (hbStep s (.frame t)).connState = s.connState ∧
          (hbStep s (.frame t)).pingAt = s.pingAt ∧
          (hbStep s (.frame t)).timeout = s.timeout ∧
          (hbStep s (.frame t)).pongReceived = s.pongReceived ∧
          (hbStep s (.frame t)).disconnectedFired = s.disconnectedFired ∧
          (hbStep s (.frame t)).closedAt = s.closedAt ∧
          (hbStep s (.frame t)).closeReason = s.closeReason := by
        by_cases hs : s.connState = .established <;> simp [hbStep, hs]
      simp only [hbRun]
      exact ⟨hrest.1.trans hstep.1,
        hrest.2.1.trans hstep.2.1,
        hrest.2.2.1.trans hstep.2.2.1,
        hrest.2.2.2.1.trans hstep.2.2.2.1,
        hrest.2.2.2.2.1.trans hstep.2.2.2.2.1,
        hrest.2.2.2.2.2.1.trans hstep.2.2.2.2.2.1,
        hrest.2.2.2.2.2.2.trans hstep.2.2.2.2.2.2⟩
    · simp [isFrame] at he

/-- C9: a ping was sent at `pingAt` and, whatever ordinary (non-pong)
frames arrive, no pong does: when the timeout deadline fires the
Connection transitions to Closed exactly at time `pingAt + timeout` (so
within `timeout + ε` of the ping) with reason "heartbeat timeout", the
`disconnected` notification fires exactly once, the intervening frames
never substituted for the pong, and the Closed state is terminal — no
further event changes the state or fires the notification again. -/
theorem heartbeat_timeout (s : HbConn) (evs : List HbEvent)
    (hst : s.connState = .established) (hp : s.pongReceived = false)
    (hfr : ∀ e ∈ evs, isFrame e = true) :
    (hbRun s evs).pongReceived = false ∧
    (hbRun s (evs ++ [.deadline (s.pingAt + s.timeout)])).connState =
      .closed ∧
    (hbRun s (evs ++ [.deadline (s.pingAt + s.timeout)])).closedAt =
      some (s.pingAt + s.timeout) ∧
    (hbRun s (evs ++ [.deadline (s.pingAt + s.timeout)])).closeReason =
      some "heartbeat timeout" ∧
    (hbRun s (evs ++ [.deadline (s.pingAt + s.timeout)])).disconnectedFired
      = s.disconnectedFired + 1 ∧
    (∀ evs2 : List HbEvent,
      hbRun (hbRun s (evs ++ [.deadline (s.pingAt + s.timeout)])) evs2 =
        hbRun s (evs ++ [.deadline (s.pingAt + s.timeout)])) := by
  obtain ⟨h1, _, _, h4, h5, _, _⟩ := hbRun_frames s evs hfr
  have hp' : (hbRun s evs).pongReceived = false := h4.trans hp
  have hst' : (hbRun s evs).connState = .established := h1.trans hst
  have hdead : hbRun s (evs ++ [.deadline (s.pingAt + s.timeout)]) =
      hbStep (hbRun s evs) (.deadline (s.pingAt + s.timeout)) := by
    rw [hbRun_append]
    rfl
  have hstep : hbStep (hbRun s evs) (.deadline (s.pingAt + s.timeout)) =
      { hbRun s evs with
        connState := .closed
        closedAt := some (s.pingAt + s.timeout)
        closeReason := some "heartbeat timeout"
        disconnectedFired := (hbRun s evs).disconnectedFired + 1 } := by
    simp [hbStep, hst', hp']
  refine ⟨hp', ?_, ?_, ?_, ?_, ?_⟩
  · rw [hdead, hstep]
  · rw [hdead, hstep]
  · rw [hdead, hstep]
  · rw [hdead, hstep]
    simp [h5]
  · intro evs2
    apply hbRun_closed
    rw [hdead, hstep]

/-- C9 witness: a concrete Established connection that receives only an
ordinary frame and no pong: the deadline closes it and fires one
`disconnected` notification. -/
theorem heartbeat_timeout_witness :
    (hbRun ⟨.established, 5, 3, false, 0, 0, none, none⟩
      [.frame 6]).pongReceived = false ∧
    (hbRun ⟨.established, 5, 3, false, 0, 0, none, none⟩
      ([.frame 6] ++ [.deadline (5 + 3)])).connState = .closed ∧
    (hbRun ⟨.established, 5, 3, false, 0, 0, none, none⟩
      ([.frame 6] ++ [.deadline (5 + 3)])).closedAt = some (5 + 3) ∧
    (hbRun ⟨.established, 5, 3, false, 0, 0, none, none⟩
      ([.frame 6] ++ [.deadline (5 + 3)])).closeReason =
      some "heartbeat timeout" ∧
    (hbRun ⟨.established, 5, 3, false, 0, 0, none, none⟩
      ([.frame 6] ++ [.deadline (5 + 3)])).disconnectedFired = 0 + 1 := by
  have h := heartbeat_timeout ⟨.established, 5, 3, false, 0, 0, none, none⟩
    [.frame 6] rfl rfl (by decide)
  exact ⟨h.1, h.2.1, h.2.2.1, h.2.2.2.1, h.2.2.2.2.1⟩

/-- Modelled from the spec: the Reconnect Controller's phases (spec §9:
Idle → Scheduled → Attempting → Connected / Idle); a scheduled phase
carries the time its retry timer fires. -/
inductive RcPhase where
  | idle : RcPhase
  | scheduled (fireAt : Nat) : RcPhase
  | attempting : RcPhase
  | connected : RcPhase
deriving DecidableEq

/-- Modelled from the spec: the Reconnect Controller's state — whether
auto-reconnect is enabled, the fixed retry interval, and the current
phase (spec §4.5; `reconnect` / `reconnectInterval` in
src/cjs/index.d.ts IPCClientOptions). -/
structure RcState where
  enabled : Bool
  interval : Nat
  phase : RcPhase
deriving DecidableEq

/-- Modelled from the spec: the events driving the Reconnect Controller —
a disconnect at time `t` (`intended` marks a caller-initiated top-level
`disconnect()`), the scheduled retry timer firing, the outcome of a
connection attempt, and `disable()` (spec §4.5). -/
inductive RcEvent where
  | disconnected (t : Nat) (intended : Bool) : RcEvent
  | timerFired : RcEvent
  | attemptFailed (t : Nat) : RcEvent
  | attemptSucceeded : RcEvent
  | disable : RcEvent
deriving DecidableEq

/-- Modelled from the spec: one step of the Reconnect Controller,
returning the new state and the times of the connection attempts it
starts.  An unintended disconnect at `t` with reconnect enabled schedules
an attempt at `t + interval` (never sooner); the timer fires exactly at
its scheduled time and starts the attempt; a failed attempt at `t`
schedules the next one at `t + interval`, indefinitely; a successful
attempt ends retrying; `disable()` — and a caller-initiated top-level
`disconnect()`, which also disables auto-reconnect
(src/cjs/index.d.ts IPCClient.disconnect: "Disconnect from server and
stop reconnect attempts") — cancels any pending scheduled attempt
immediately (spec §4.5). -/
def rcStep (s : RcState) (e : RcEvent) : RcState × List Nat :=
  match e with
  | .disconnected t intended =>
    if intended then ({ s with enabled := false, phase := .idle }, [])
    else if s.enabled then
      ({ s with phase := .scheduled (t + s.interval) }, [])
    else ({ s with phase := .idle }, [])
  | .timerFired =>
    match s.phase with
    | .scheduled f => ({ s with phase := .attempting }, [f])
    | _ => (s, [])
  | .attemptFailed t =>
    match s.phase with
    | .attempting =>
      if s.enabled then ({ s with phase := .scheduled (t + s.interval) }, [])
      else ({ s with phase := .idle }, [])
    | _ => (s, [])
  | .attemptSucceeded =>
    match s.phase with
    | .attempting => ({ s with phase := .connected }, [])
    | _ => (s, [])
  | .disable => ({ s with enabled := false, phase := .idle }, [])

/-- Run the Reconnect Controller over a sequence of events, collecting
every attempt time. -/
def rcRun (s : RcState) : List RcEvent → RcState × List Nat
  | [] => (s, [])
  | e :: es => ((rcRun (rcStep s e).1 es).1, (rcStep s e).2 ++ (rcRun (rcStep s e).1 es).2)

/-- Time lower bound on an event: the timed events carry a time at or
after `b` (event times do not run backwards past the disconnect). -/
def rcTimeLB (b : Nat) : RcEvent → Bool
  | .disconnected t _ => decide (b ≤ t)
  | .attemptFailed t => decide (b ≤ t)
  | _ => true

/-- The reconnect invariant: the interval is unchanged and any scheduled
attempt fires no earlier than `b + interval`. -/
def rcInv (b i : Nat) (s : RcState) : Prop :=
  s.interval = i ∧ ∀ f : Nat, s.phase = .scheduled f → b + i ≤ f

theorem rcStep_inv {b i : Nat} {s : RcState} (e : RcEvent)
    (hInv : rcInv b i s) (he : rcTimeLB b e = true) :
    rcInv b i (rcStep s e).1 ∧ ∀ a ∈ (rcStep s e).2, b + i ≤ a := by
  obtain ⟨hi, hsch⟩ := hInv
  rcases e with ⟨t, intended⟩ | _ | t | _ | _
  · simp only [rcTimeLB, decide_eq_true_eq] at he
    cases intended
    · by_cases hen : s.enabled = true
      · refine ⟨⟨by simp [rcStep, hen, hi], ?_⟩, by simp [rcStep, hen]⟩
        intro f hf
        simp [rcStep, hen] at hf
        omega
      · simp only [Bool.not_eq_true] at hen
        exact ⟨⟨by simp [rcStep, hen, hi], by simp [rcStep, hen]⟩,
          by simp [rcStep, hen]⟩
    · exact ⟨⟨by simp [rcStep, hi], by simp [rcStep]⟩, by simp [rcStep]⟩
  · rcases hp : s.phase with _ | f | _ | _ <;>
      simp only [rcStep, hp] <;>
      refine ⟨⟨hi, ?_⟩, ?_⟩ <;> simp_all
  · simp only [rcTimeLB, decide_eq_true_eq] at he
    rcases hp : s.phase with _ | f | _ | _
    · simp only [rcStep, hp]
      exact ⟨⟨hi, hsch⟩, by simp⟩
    · simp only [rcStep, hp]
      exact ⟨⟨hi, hsch⟩, by simp⟩
    · by_cases hen : s.enabled = true
      · refine ⟨⟨by simp [rcStep, hp, hen, hi], ?_⟩, by simp [rcStep, hp, hen]⟩
        intro f hf
        simp [rcStep, hp, hen] at hf
        omega
      · simp only [Bool.not_eq_true] at hen
        exact ⟨⟨by simp [rcStep, hp, hen, hi], by simp [rcStep, hp, hen]⟩,
          by simp [rcStep, hp, hen]⟩
    · simp only [rcStep, hp]
      exact ⟨⟨hi, hsch⟩, by simp⟩
  · rcases hp : s.phase with _ | f | _ | _ <;>
      simp only [rcStep, hp] <;>
      refine ⟨⟨hi, ?_⟩, ?_⟩ <;> simp_all
  · exact ⟨⟨by simp [rcStep, hi], by simp [rcStep]⟩, by simp [rcStep]⟩

theorem rcRun_attempts_lb {b i : Nat} :
    ∀ (evs : List RcEvent) (s : RcState), rcInv b i s →
      (∀ e ∈ evs, rcTimeLB b e = true) →
      ∀ a ∈ (rcRun s evs).2, b + i ≤ a := by
  intro evs
  induction evs with
  | nil => intro s _ _ a ha; simp [rcRun] at ha
  | cons e es ih =>
    intro s hInv hlb a ha
    obtain ⟨hInv', hstep⟩ :=
      rcStep_inv e hInv (hlb e (List.mem_cons_self e es))
    simp only [rcRun, List.mem_append] at ha
    rcases ha with ha | ha
    · exact hstep a ha
    · exact ih (rcStep s e).1 hInv'
        (fun x hx => hlb x (List.mem_cons_of_mem e hx)) a ha

theorem rcRun_disabled :
    ∀ (evs : List RcEvent) (s : RcState), s.enabled = false →
      s.phase = .idle →
      (rcRun s evs).2 = [] ∧ (rcRun s evs).1.enabled = false ∧
        (rcRun s evs).1.phase = .idle := by
  intro evs
  induction evs with
  | nil => intro s h1 h2; exact ⟨rfl, h1, h2⟩
  | cons e es ih =>
    intro s h1 h2
    have hstep : (rcStep s e).2 = [] ∧ (rcStep s e).1.enabled = false ∧
        (rcStep s e).1.phase = .idle := by
      rcases e with ⟨t, intended⟩ | _ | t | _ | _
      · cases intended <;> simp [rcStep, h1]
      · simp [rcStep, h1, h2]
      · simp [rcStep, h1, h2]
      · simp [rcStep, h1, h2]
      · simp [rcStep, h1]
    have hrest := ih (rcStep s e).1 hstep.2.1 hstep.2.2
    refine ⟨?_, hrest.2.1, hrest.2.2⟩
    simp only [rcRun, hstep.1, hrest.1, List.append_nil]

/-- C8: with reconnect enabled at interval `I`, an unintended disconnect
at time `t` schedules — and does not yet start — a reconnect attempt for
`t + I`, and in any following run of timer firings, failed or successful
attempts and further (time-consistent) disconnects, every attempt the
controller starts happens no sooner than `t + I`; a failed attempt at
`t'` reschedules for `t' + I` (retrying indefinitely while enabled);
`disable()` — including the caller-initiated top-level `disconnect()` —
immediately cancels any pending attempt, disables the controller, and no
attempt is ever started afterwards. -/
theorem reconnect_no_sooner (s : RcState) (t : Nat) (evs : List RcEvent)
    (hen : s.enabled = true)
    (hlb : ∀ e ∈ evs, rcTimeLB t e = true) :
    (rcStep s (.disconnected t false)).1.phase =
      .scheduled (t + s.interval) ∧
    (rcStep s (.disconnected t false)).2 = [] ∧
    (∀ a ∈ (rcRun (rcStep s (.disconnected t false)).1 evs).2,
      t + s.interval ≤ a) ∧
    (∀ s' : RcState, s'.phase = .attempting → s'.enabled = true →
      ∀ t' : Nat, (rcStep s' (.attemptFailed t')).1.phase =
        .scheduled (t' + s'.interval)) ∧
    (∀ s' : RcState, (rcStep s' .disable).1.phase = .idle ∧
      (rcStep s' .disable).1.enabled = false ∧
      (rcStep s' .disable).2 = []) ∧
    (∀ (s' : RcState) (t' : Nat),
      (rcStep s' (.disconnected t' true)).1.phase = .idle ∧
      (rcStep s' (.disconnected t' true)).1.enabled = false ∧
      (rcStep s' (.disconnected t' true)).2 = []) ∧
    (∀ (s' : RcState) (evs2 : List RcEvent),
      (rcRun (rcStep s' .disable).1 evs2).2 = []) := by
  refine ⟨by simp [rcStep, hen], by simp [rcStep, hen], ?_, ?_, ?_, ?_, ?_⟩
  · have hInv : rcInv t s.interval (rcStep s (.disconnected t false)).1 := by
      constructor
      · simp [rcStep, hen]
      · intro f hf
        simp [rcStep, hen] at hf
        omega
    exact rcRun_attempts_lb evs _ hInv hlb
  · intro s' hp hen' t'
    simp [rcStep, hp, hen']
  · intro s'
    exact ⟨by simp [rcStep], by simp [rcStep], by simp [rcStep]⟩
  · intro s' t'
    exact ⟨by simp [rcStep], by simp [rcStep], by simp [rcStep]⟩
  · intro s' evs2
    exact (rcRun_disabled evs2 (rcStep s' .disable).1
      (by simp [rcStep]) (by simp [rcStep])).1

/-- C8 witness: a concrete run — disconnect at time 5 with interval 3000,
timer fires and the attempt fails at 3005, rescheduling — instantiating
the no-sooner-than-interval guarantee. -/
theorem reconnect_no_sooner_witness :
    (rcStep ⟨true, 3000, .connected⟩ (.disconnected 5 false)).1.phase =
      .scheduled (5 + (RcState.mk true 3000 .connected).interval) ∧
    (rcStep ⟨true, 3000, .connected⟩ (.disconnected 5 false)).2 = [] := by
  have h := reconnect_no_sooner ⟨true, 3000, .connected⟩ 5
    [.timerFired, .attemptFailed 3005, .timerFired, .attemptSucceeded]
    (by decide) (by decide)
  exact ⟨h.1, h.2.1⟩
